import Mathlib

/-!
Shallow embedding of the `git-repo-sync` utility (sources: `src/main.rs`,
`src/sync.rs`, `src/scan.rs`, `src/fs.rs`, `src/host.rs`).

A relative path is modelled as its sequence of components (`Path` below),
matching Rust's `std::path::PathBuf` whose `Ord` instance compares the
component sequences lexicographically, each component by byte order (which
for valid UTF-8 agrees with code-point order, hence with `String` order).
-/

namespace GitRepoSync

/-- A relative path, as its list of components.  Mirrors `std::path::PathBuf`
(`fs.rs` stores relative paths). -/
abbrev Path := List String

/-- Component-wise lexicographic comparison of paths.  Mirrors the `Ord`
implementation of Rust `Path`/`PathBuf`: the component sequences are compared
lexicographically and a strict prefix is smaller than its extensions. -/
def pcmp : Path → Path → Ordering
  | [], [] => .eq
  | [], _ :: _ => .lt
  | _ :: _, [] => .gt
  | a :: as, b :: bs =>
    match compare a b with
    | .eq => pcmp as bs
    | .lt => .lt
    | .gt => .gt

/-- Boolean `≤` on paths, the sort predicate corresponding to
`sort_by_key(|x| x.path.clone())` in `sync.rs`. -/
def pleB (p q : Path) : Bool := pcmp p q != Ordering.gt

/-- `p` is a strict ancestor of `q`: `q` extends `p` by at least one
component. -/
def strictAncestor (p q : Path) : Prop := ∃ r, r ≠ [] ∧ q = p ++ r

/-- A regular file: relative path and size in bytes (`fs.rs`, `struct File`;
`size: u64` is modelled as `Nat`, sizes produced by the scanners are
non-negative). -/
structure File where
  path : Path
  size : Nat
deriving DecidableEq, Repr

/-- A directory: relative path only (`fs.rs`, `struct Directory`). -/
structure Directory where
  path : Path
deriving DecidableEq, Repr

/-- A snapshot of one tree (`scan.rs`, `struct DirectoryScanList`). -/
structure DirectoryScanList where
  directories : List Directory
  files : List File
deriving DecidableEq, Repr

/-- The plan (`sync.rs`, `struct Sync`): four ordered action lists. -/
structure Sync where
  remove_files : List Path
  remove_directories : List Path
  create_directories : List Path
  copy_files : List Path
deriving DecidableEq, Repr

/-- The directory half of the merge loop of `Sync::unidirectional`
(`sync.rs:32-68`), on the two sorted directory queues.  Returns
`(create_directories, remove_directories)` in emission order. -/
def mergeDirs : List Directory → List Directory → List Path × List Path
  | x :: xs, y :: ys =>
    match pcmp x.path y.path with
    | .eq => mergeDirs xs ys
    | .lt =>
      let rest := mergeDirs xs (y :: ys)
      (x.path :: rest.1, rest.2)
    | .gt =>
      let rest := mergeDirs (x :: xs) ys
      (rest.1, y.path :: rest.2)
  | x :: xs, [] =>
    let rest := mergeDirs xs []
    (x.path :: rest.1, rest.2)
  | [], y :: ys =>
    let rest := mergeDirs [] ys
    (rest.1, y.path :: rest.2)
  | [], [] => ([], [])
termination_by s t => (s.length, t.length)

/-- The file half of the merge loop of `Sync::unidirectional`
(`sync.rs:74-109`), on the two sorted file queues.  Returns
`(copy_files, remove_files)` in emission order; on equal paths the sizes are
compared and the path is copied only when they differ (`sync.rs:80-82`). -/
def mergeFiles : List File → List File → List Path × List Path
  | x :: xs, y :: ys =>
    match pcmp x.path y.path with
    | .eq =>
      let rest := mergeFiles xs ys
      if x.size ≠ y.size then (x.path :: rest.1, rest.2) else rest
    | .lt =>
      let rest := mergeFiles xs (y :: ys)
      (x.path :: rest.1, rest.2)
    | .gt =>
      let rest := mergeFiles (x :: xs) ys
      (rest.1, y.path :: rest.2)
  | x :: xs, [] =>
    let rest := mergeFiles xs []
    (x.path :: rest.1, rest.2)
  | [], y :: ys =>
    let rest := mergeFiles [] ys
    (rest.1, y.path :: rest.2)
  | [], [] => ([], [])
termination_by s t => (s.length, t.length)

/-- Stable sort of directories by path (`sync.rs:28-29`). -/
def sortDirs (l : List Directory) : List Directory :=
  l.mergeSort fun a b => pleB a.path b.path

/-- Stable sort of files by path (`sync.rs:70-71`). -/
def sortFiles (l : List File) : List File :=
  l.mergeSort fun a b => pleB a.path b.path

/-- `Sync::unidirectional` (`sync.rs:19-117`): sort both sides' directories
and files by path, then run the two independent two-pointer merges. -/
def Sync.unidirectional (source target : DirectoryScanList) : Sync :=
  let source_directories := sortDirs source.directories
  let target_directories := sortDirs target.directories
  let dirPlan := mergeDirs source_directories target_directories
  let source_files := sortFiles source.files
  let target_files := sortFiles target.files
  let filePlan := mergeFiles source_files target_files
  { remove_files := filePlan.2
    remove_directories := dirPlan.2
    create_directories := dirPlan.1
    copy_files := filePlan.1 }

/-- Modelled from the spec: §8 ("Idempotence") describes applying a Plan to
the target snapshot — files in `removeFiles` deleted, directories in
`removeDirectories` deleted, directories in `createDirectories` added, files
in `copyFiles` added or overwritten with the source's size.  The executors
apply the plan to a real filesystem, which is outside the snapshot algebra,
so the snapshot-level application is taken from the spec's own wording. -/
def applySync (plan : Sync) (source target : DirectoryScanList) : DirectoryScanList :=
  { directories :=
      target.directories.filter (fun d => decide (d.path ∉ plan.remove_directories))
        ++ plan.create_directories.map Directory.mk
    files :=
      target.files.filter
        (fun f => decide (f.path ∉ plan.remove_files ∧ f.path ∉ plan.copy_files))
        ++ source.files.filter (fun f => decide (f.path ∈ plan.copy_files)) }

/-- One instruction of the batched `sftp -b -` session.  `rmdir` is an
instruction SFTP offers but the program never writes (`sync.rs:150-156`). -/
inductive SftpCmd where
  | rm (p : Path)
  | rmdir (p : Path)
  | mkdir (p : Path)
  | put (src dst : Path)
  | get (src dst : Path)
deriving DecidableEq, Repr

/-- `Sync::execute_remote` (`sync.rs:119-188`): the instruction sequence
written to the single batched sftp session, in program order — `rm` for each
`remove_files` entry (`sync.rs:157-164`), then `mkdir` for each
`create_directories` entry (`sync.rs:165-172`), then `put` for each
`copy_files` entry (`sync.rs:173-181`); all paths joined under the
corresponding root.  `remove_directories` is never read. -/
def Sync.execute_remote_batch (s : Sync) (local_path remote_path : Path) : List SftpCmd :=
  s.remove_files.map (fun f => .rm (remote_path ++ f))
    ++ s.create_directories.map (fun d => .mkdir (remote_path ++ d))
    ++ s.copy_files.map (fun f => .put (local_path ++ f) (remote_path ++ f))

/-- Phase rank of an instruction under the fixed operation order of the
executors (`sync.rs:125-136`): remove files, remove directories, create
directories, copy files. -/
def SftpCmd.phase : SftpCmd → Nat
  | .rm _ => 0
  | .rmdir _ => 1
  | .mkdir _ => 2
  | .put _ _ => 3
  | .get _ _ => 3

/-- The local filesystem as visible to `execute_local`: the directory and
file entries that exist, each an absolute path. -/
structure FS where
  dirs : List Path
  files : List Path
deriving DecidableEq, Repr

/-- `underDir d q`: entry `q` lies strictly below directory `d`. -/
def underDir : Path → Path → Bool
  | [], [] => false
  | [], _ :: _ => true
  | _ :: _, [] => false
  | a :: d, b :: q => a == b && underDir d q

/-- The `read_dir(..).next().is_none()` emptiness probe (`sync.rs:216-219`):
the directory is non-empty iff some existing entry lies strictly below it. -/
def FS.dirNonEmpty (fs : FS) (d : Path) : Bool :=
  (fs.dirs ++ fs.files).any (underDir d)

/-- One iteration of the `remove_directories` loop of `Sync::execute_local`
(`sync.rs:212-224`): `read_dir` fails when the directory is missing;
otherwise the directory is removed only when the emptiness probe finds no
entry, and a non-empty directory is silently left in place. -/
def removeDirStep (fs : FS) (d : Path) : Except String FS :=
  if d ∈ fs.dirs then
    if fs.dirNonEmpty d then .ok fs
    else .ok { fs with dirs := fs.dirs.erase d }
  else .error "failed to open directory"

/-- One iteration of the `remove_files` loop of `Sync::execute_local`
(`sync.rs:209-211`). -/
def removeFileStep (fs : FS) (f : Path) : Except String FS :=
  if f ∈ fs.files then .ok { fs with files := fs.files.erase f }
  else .error "failed to remove file"

/-- `std::fs::create_dir_all`: create the directory and every missing
ancestor. -/
def createDirAllStep (fs : FS) (d : Path) : FS :=
  { fs with
    dirs := fs.dirs
      ++ ((List.range d.length).map (fun i => d.take (i + 1))).filter
        (fun p => decide (p ∉ fs.dirs)) }

/-- `Sync::execute_local` (`sync.rs:190-253`) on the filesystem model, in
program order: remove files (paths joined with `local_path`), guarded
directory removal (joined with `local_path`), directory creation — the
source passes the plan-relative `directory` to `create_dir_all` without
joining `local_path` (`sync.rs:226`) — then one sftp `get` instruction per
`copy_files` entry. -/
def Sync.execute_local_model (s : Sync) (local_path remote_path : Path) (fs : FS) :
    Except String (FS × List SftpCmd) := do
  let fs₁ ← (s.remove_files.map (fun f => local_path ++ f)).foldlM removeFileStep fs
  let fs₂ ← (s.remove_directories.map (fun d => local_path ++ d)).foldlM removeDirStep fs₁
  let fs₃ := s.create_directories.foldl createDirAllStep fs₂
  pure (fs₃, s.copy_files.map (fun f => .get (remote_path ++ f) (local_path ++ f)))

/-- `main` (`main.rs:79-86`): the result of `run()` is matched; the error
branch prints one diagnostic line to stderr; both branches fall through to a
normal return from `main`, so the process terminates with status 0 either
way.  Result: (process exit status, stderr lines). -/
def mainModel (r : Except String Unit) : Nat × List String :=
  match r with
  | .ok _ => (0, [])
  | .error err => (0, ["error: " ++ err])

/-- `Host` (`host.rs`). -/
structure Host where
  name : String
deriving DecidableEq, Repr

/-- `Remote` (`main.rs:43-47`); the directory is kept in its string form. -/
structure Remote where
  host : Host
  dir : List Char
deriving DecidableEq, Repr

/-- `str::split_once(c)`: split at the first occurrence of `c`. -/
def splitOnceChar (c : Char) : List Char → Option (List Char × List Char)
  | [] => none
  | a :: rest =>
    if a = c then some ([], rest)
    else
      match splitOnceChar c rest with
      | some (l, r) => some (a :: l, r)
      | none => none

/-- `strip_path_trailing_sep` (`main.rs:212-223`): strip at most one
trailing path separator. -/
def stripTrailingSep (p : List Char) : List Char :=
  if p ≠ [] ∧ p.getLast? = some '/' then p.dropLast else p

/-- The `dir.strip_prefix("~/")` normalization of `Remote::from_str`
(`main.rs:58-62`).  `Path::strip_prefix` works on components: it removes a
leading `~` component (so the lone path `~` becomes the empty path, and the
separators after `~` are consumed); when the first component is not `~` the
strip fails and `dir` is kept unchanged. -/
def stripHomeTilde : List Char → List Char
  | '~' :: '/' :: rest => rest.dropWhile (· == '/')
  | ['~'] => []
  | p => p

/-- `Remote::from_str` (`main.rs:49-71`): split at the first `:`; host is
the part before it, the directory is everything after it, normalized by
`strip_path_trailing_sep` and the `~/`-strip; a string without `:` is the
only failure. -/
def remoteFromStr (s : String) : Except String Remote :=
  match splitOnceChar ':' s.data with
  | some (host, dir) =>
    .ok { host := { name := String.mk host }, dir := stripHomeTilde (stripTrailingSep dir) }
  | none => .error ("invalid remote: " ++ s)

/-- `str::rsplit_once(c)`: split at the last occurrence of `c`. -/
def rsplitOnce (c : Char) : List Char → Option (List Char × List Char)
  | [] => none
  | a :: rest =>
    match rsplitOnce c rest with
    | some (l, r) => some (a :: l, r)
    | none => if a = c then some ([], rest) else none

/-- `str::trim`. -/
def trimChars (s : List Char) : List Char :=
  ((s.dropWhile Char.isWhitespace).reverse.dropWhile Char.isWhitespace).reverse

/-- `str::lines`: split on newline; a trailing newline produces no final
empty line; a trailing carriage return is stripped from each line. -/
def linesOf (s : List Char) : List (List Char) :=
  if s = [] then []
  else
    let parts := s.splitOn '\n'
    let parts := if parts.getLast? = some [] then parts.dropLast else parts
    parts.map (fun l => if l.getLast? = some '\r' then l.dropLast else l)

/-- Value of a digit string. -/
def natOfDigits (s : List Char) : Nat :=
  s.foldl (fun n c => n * 10 + (c.toNat - 48)) 0

/-- `u64::from_str` as used on the size field (`scan.rs:107`): an optional
leading `+`, then one or more ASCII digits, value below `2^64`. -/
def parseU64 (s : List Char) : Option Nat :=
  let digits :=
    match s with
    | '+' :: rest => rest
    | _ => s
  if digits ≠ [] ∧ digits.all Char.isDigit ∧ natOfDigits digits < 2 ^ 64 then
    some (natOfDigits digits)
  else none

/-- `Path::new(s)` read back as a component list: separators split the
string and empty components collapse. -/
def pathOfChars (s : List Char) : Path :=
  ((s.splitOn '/').filter (fun c => !c.isEmpty)).map (fun c => String.mk c)

/-- One parsed `find` output entry. -/
inductive ScanEntry where
  | fileEntry (p : Path) (size : Nat)
  | dirEntry (p : Path)
deriving DecidableEq, Repr

/-- The per-line parse of `DirectoryScanList::from_remote_over_ssh`
(`scan.rs:100-126`): two right-splits on a space; the trimmed type field
selects file or directory; the size field is parsed only in the `f` branch;
a directory path with zero components is skipped (`scan.rs:110`). -/
def parseLine (line : List Char) : Except String (Option ScanEntry) :=
  match rsplitOnce ' ' (trimChars line) with
  | some (entry_p1, entry_size) =>
    match rsplitOnce ' ' (trimChars entry_p1) with
    | some (entry_path, entry_type) =>
      let path := pathOfChars entry_path
      if trimChars entry_type = ['f'] then
        match parseU64 entry_size with
        | some n => .ok (some (.fileEntry path n))
        | none => .error "failed to parse file size"
      else if trimChars entry_type = ['d'] then
        .ok (if path ≠ [] then some (.dirEntry path) else none)
      else .error "malformed find output line (incorrect file type)"
    | none => .error "malformed find output line"
  | none => .error "malformed find output line"

/-- The line loop of `from_remote_over_ssh` (`scan.rs:98-126`): stop at the
first malformed line, otherwise collect files and directories in line
order. -/
def parseLines : List (List Char) → Except String (List Directory × List File)
  | [] => .ok ([], [])
  | l :: ls =>
    match parseLine l with
    | .error e => .error e
    | .ok none => parseLines ls
    | .ok (some (.fileEntry p n)) =>
      match parseLines ls with
      | .error e => .error e
      | .ok (ds, fs) => .ok (ds, ⟨p, n⟩ :: fs)
    | .ok (some (.dirEntry p)) =>
      match parseLines ls with
      | .error e => .error e
      | .ok (ds, fs) => .ok (⟨p⟩ :: ds, fs)

/-- The success path of `from_remote_over_ssh` (`scan.rs:95-127`): trim the
command's standard output, then parse it line by line into a snapshot. -/
def parseFindOutput (stdout : List Char) : Except String DirectoryScanList :=
  match parseLines (linesOf (trimChars stdout)) with
  | .error e => .error e
  | .ok (ds, fs) => .ok { directories := ds, files := fs }

/-- A path list in strictly ascending `pcmp` order. -/
def SortedPathsLt (l : List Path) : Prop := l.Pairwise fun p q => pcmp p q = .lt

/-- A file list in strictly ascending path order. -/
def SortedFilesLt (l : List File) : Prop := l.Pairwise fun a b => pcmp a.path b.path = .lt

/-- A directory list in strictly ascending path order. -/
def SortedDirsLt (l : List Directory) : Prop := l.Pairwise fun a b => pcmp a.path b.path = .lt

end GitRepoSync

namespace GitRepoSync

theorem scmp_refl (a : String) : compare a a = .eq :=
  Batteries.OrientedCmp.cmp_refl

theorem scmp_eq_iff {a b : String} : compare a b = .eq ↔ a = b :=
  Batteries.BEqCmp.cmp_iff_eq

theorem scmp_gt_iff {a b : String} : compare a b = .gt ↔ compare b a = .lt :=
  Batteries.OrientedCmp.cmp_eq_gt

theorem scmp_lt_trans {a b c : String} (h₁ : compare a b = .lt) (h₂ : compare b c = .lt) :
    compare a c = .lt :=
  Batteries.TransCmp.lt_trans h₁ h₂

theorem pcmp_self (p : Path) : pcmp p p = .eq := by
  induction p with
  | nil => rfl
  | cons a as ih => simp [pcmp, scmp_refl, ih]

theorem pcmp_eq_iff {p q : Path} : pcmp p q = .eq ↔ p = q := by
  induction p generalizing q with
  | nil => cases q <;> simp [pcmp]
  | cons a as ih =>
    cases q with
    | nil => simp [pcmp]
    | cons b bs =>
      simp only [pcmp]
      cases h : compare a b with
      | lt =>
        simp only [List.cons.injEq]
        constructor
        · intro h'
          exact absurd h' (by simp)
        · rintro ⟨rfl, rfl⟩
          rw [scmp_refl] at h
          exact absurd h (by simp)
      | eq =>
        have hab : a = b := scmp_eq_iff.mp h
        subst hab
        simp [ih]
      | gt =>
        simp only [List.cons.injEq]
        constructor
        · intro h'
          exact absurd h' (by simp)
        · rintro ⟨rfl, rfl⟩
          rw [scmp_refl] at h
          exact absurd h (by simp)

theorem pcmp_gt_iff {p q : Path} : pcmp p q = .gt ↔ pcmp q p = .lt := by
  induction p generalizing q with
  | nil => cases q <;> simp [pcmp]
  | cons a as ih =>
    cases q with
    | nil => simp [pcmp]
    | cons b bs =>
      have hgoal : pcmp (a :: as) (b :: bs) = .gt ↔ pcmp (b :: bs) (a :: as) = .lt := by
        simp only [pcmp]
        cases h : compare a b with
        | lt =>
          rw [scmp_gt_iff.mpr h]
          simp
        | eq =>
          have hab : a = b := scmp_eq_iff.mp h
          subst hab
          rw [scmp_refl]
          simpa using ih
        | gt =>
          rw [scmp_gt_iff.mp h]
          simp
      exact hgoal

theorem pcmp_lt_trans {p q r : Path} (h₁ : pcmp p q = .lt) (h₂ : pcmp q r = .lt) :
    pcmp p r = .lt := by
  induction p generalizing q r with
  | nil =>
    cases q with
    | nil => exact absurd h₁ (by simp [pcmp])
    | cons b bs =>
      cases r with
      | nil => exact absurd h₂ (by simp [pcmp])
      | cons c cs => simp [pcmp]
  | cons a as ih =>
    cases q with
    | nil => exact absurd h₁ (by simp [pcmp])
    | cons b bs =>
      cases r with
      | nil => exact absurd h₂ (by simp [pcmp])
      | cons c cs =>
        simp only [pcmp] at h₁ h₂ ⊢
        cases hab : compare a b with
        | lt =>
          cases hbc : compare b c with
          | lt => rw [scmp_lt_trans hab hbc]
          | eq =>
            have : b = c := scmp_eq_iff.mp hbc
            subst this
            rw [hab]
          | gt =>
            rw [hbc] at h₂
            exact absurd h₂ (by simp)
        | eq =>
          have hab' : a = b := scmp_eq_iff.mp hab
          subst hab'
          rw [hab] at h₁
          cases hac : compare a c with
          | lt => rfl
          | eq => rw [hac] at h₂; exact ih h₁ h₂
          | gt =>
            rw [hac] at h₂
            exact absurd h₂ (by simp)
        | gt =>
          rw [hab] at h₁
          exact absurd h₁ (by simp)

theorem pcmp_lt_asymm {p q : Path} (h₁ : pcmp p q = .lt) (h₂ : pcmp q p = .lt) : False := by
  have : pcmp p q = .gt := pcmp_gt_iff.mpr h₂
  rw [h₁] at this
  exact absurd this (by simp)

theorem pleB_iff {p q : Path} : pleB p q = true ↔ pcmp p q ≠ .gt := by
  cases h : pcmp p q <;> simp [pleB, h] <;> rfl

theorem pleB_total (p q : Path) : (pleB p q || pleB q p) = true := by
  rcases h : pcmp p q with _ | _ | _
  · have : pleB p q = true := pleB_iff.mpr (by rw [h]; simp)
    simp [this]
  · have : pleB p q = true := pleB_iff.mpr (by rw [h]; simp)
    simp [this]
  · have hqp : pcmp q p = .lt := pcmp_gt_iff.mp h
    have : pleB q p = true := pleB_iff.mpr (by rw [hqp]; simp)
    simp [this]

theorem pleB_trans {p q r : Path} (h₁ : pleB p q) (h₂ : pleB q r) : pleB p r = true := by
  rw [pleB_iff] at h₁ h₂ ⊢
  cases hpq : pcmp p q with
  | lt =>
    cases hqr : pcmp q r with
    | lt => rw [pcmp_lt_trans hpq hqr]; simp
    | eq => rw [pcmp_eq_iff.mp hqr] at hpq; rw [hpq]; simp
    | gt => exact absurd hqr h₂
  | eq =>
    cases hqr : pcmp q r with
    | lt => rw [pcmp_eq_iff.mp hpq, hqr]; simp
    | eq => rw [pcmp_eq_iff.mp hpq, pcmp_eq_iff.mp hqr, pcmp_self]; simp
    | gt => exact absurd hqr h₂
  | gt => exact absurd hpq h₁

theorem strictAncestor_lt {p q : Path} (h : strictAncestor p q) : pcmp p q = .lt := by
  obtain ⟨r, hr, rfl⟩ := h
  induction p with
  | nil =>
    cases r with
    | nil => exact absurd rfl hr
    | cons a as => simp [pcmp]
  | cons a as ih => simp [pcmp, scmp_refl, ih]

theorem unidirectional_copy_files (source target : DirectoryScanList) :
    (Sync.unidirectional source target).copy_files
      = (mergeFiles (sortFiles source.files) (sortFiles target.files)).1 := rfl

theorem unidirectional_remove_files (source target : DirectoryScanList) :
    (Sync.unidirectional source target).remove_files
      = (mergeFiles (sortFiles source.files) (sortFiles target.files)).2 := rfl

theorem unidirectional_create_directories (source target : DirectoryScanList) :
    (Sync.unidirectional source target).create_directories
      = (mergeDirs (sortDirs source.directories) (sortDirs target.directories)).1 := rfl

theorem unidirectional_remove_directories (source target : DirectoryScanList) :
    (Sync.unidirectional source target).remove_directories
      = (mergeDirs (sortDirs source.directories) (sortDirs target.directories)).2 := rfl

theorem mergeDirs_nil_right : ∀ s, mergeDirs s [] = (s.map Directory.path, []) := by
  intro s
  induction s with
  | nil => simp [mergeDirs]
  | cons x xs ih => simp [mergeDirs, ih]

theorem mergeDirs_nil_left : ∀ t, mergeDirs [] t = ([], t.map Directory.path) := by
  intro t
  induction t with
  | nil => simp [mergeDirs]
  | cons y ys ih => simp [mergeDirs, ih]

theorem mergeFiles_nil_right : ∀ s, mergeFiles s [] = (s.map File.path, []) := by
  intro s
  induction s with
  | nil => simp [mergeFiles]
  | cons x xs ih => simp [mergeFiles, ih]

theorem mergeFiles_nil_left : ∀ t, mergeFiles [] t = ([], t.map File.path) := by
  intro t
  induction t with
  | nil => simp [mergeFiles]
  | cons y ys ih => simp [mergeFiles, ih]

theorem mergeDirs_create_sublist : ∀ s t, ((mergeDirs s t).1).Sublist (s.map Directory.path) := by
  intro s t
  induction s, t using mergeDirs.induct with
  | case1 x xs y ys h ih => simp only [mergeDirs, h]; exact ih.trans (List.sublist_cons_self _ _)
  | case2 x xs y ys h ih => simp only [mergeDirs, h, List.map_cons]; exact ih.cons₂ _
  | case3 x xs y ys h ih => simp only [mergeDirs, h]; exact ih
  | case4 x xs ih => simp [mergeDirs_nil_right]
  | case5 y ys ih => simp [mergeDirs_nil_left]
  | case6 => simp [mergeDirs]

theorem mergeDirs_remove_sublist : ∀ s t, ((mergeDirs s t).2).Sublist (t.map Directory.path) := by
  intro s t
  induction s, t using mergeDirs.induct with
  | case1 x xs y ys h ih => simp only [mergeDirs, h]; exact ih.trans (List.sublist_cons_self _ _)
  | case2 x xs y ys h ih => simp only [mergeDirs, h]; exact ih
  | case3 x xs y ys h ih => simp only [mergeDirs, h, List.map_cons]; exact ih.cons₂ _
  | case4 x xs ih => simp [mergeDirs_nil_right]
  | case5 y ys ih => simp [mergeDirs_nil_left]
  | case6 => simp [mergeDirs]

theorem mergeFiles_copy_sublist : ∀ s t, ((mergeFiles s t).1).Sublist (s.map File.path) := by
  intro s t
  induction s, t using mergeFiles.induct with
  | case1 x xs y ys h hs ih =>
    simp only [mergeFiles, h, if_pos hs, List.map_cons]
    exact ih.cons₂ _
  | case2 x xs y ys h hs ih =>
    simp only [mergeFiles, h, if_neg hs]
    exact ih.trans (List.sublist_cons_self _ _)
  | case3 x xs y ys h ih => simp only [mergeFiles, h, List.map_cons]; exact ih.cons₂ _
  | case4 x xs y ys h ih => simp only [mergeFiles, h]; exact ih
  | case5 x xs ih => simp [mergeFiles_nil_right]
  | case6 y ys ih => simp [mergeFiles_nil_left]
  | case7 => simp [mergeFiles]

theorem mergeFiles_remove_sublist : ∀ s t, ((mergeFiles s t).2).Sublist (t.map File.path) := by
  intro s t
  induction s, t using mergeFiles.induct with
  | case1 x xs y ys h hs ih =>
    simp only [mergeFiles, h, if_pos hs]
    exact ih.trans (List.sublist_cons_self _ _)
  | case2 x xs y ys h hs ih =>
    simp only [mergeFiles, h, if_neg hs]
    exact ih.trans (List.sublist_cons_self _ _)
  | case3 x xs y ys h ih => simp only [mergeFiles, h]; exact ih
  | case4 x xs y ys h ih => simp only [mergeFiles, h, List.map_cons]; exact ih.cons₂ _
  | case5 x xs ih => simp [mergeFiles_nil_right]
  | case6 y ys ih => simp [mergeFiles_nil_left]
  | case7 => simp [mergeFiles]

theorem sortFiles_perm (l : List File) : (sortFiles l).Perm l :=
  List.mergeSort_perm l _

theorem sortDirs_perm (l : List Directory) : (sortDirs l).Perm l :=
  List.mergeSort_perm l _

theorem sortFiles_le_sorted (l : List File) :
    (sortFiles l).Pairwise fun a b => pleB a.path b.path = true :=
  @List.sorted_mergeSort File (fun a b => pleB a.path b.path)
    (fun _ _ _ hab hbc => pleB_trans hab hbc)
    (fun a b => pleB_total a.path b.path) l

theorem sortDirs_le_sorted (l : List Directory) :
    (sortDirs l).Pairwise fun a b => pleB a.path b.path = true :=
  @List.sorted_mergeSort Directory (fun a b => pleB a.path b.path)
    (fun _ _ _ hab hbc => pleB_trans hab hbc)
    (fun a b => pleB_total a.path b.path) l

theorem sortFiles_sorted_lt {l : List File} (h : (l.map File.path).Nodup) :
    SortedFilesLt (sortFiles l) := by
  have hnd : ((sortFiles l).map File.path).Nodup :=
    (List.Perm.nodup_iff (List.Perm.map File.path (sortFiles_perm l))).mpr h
  have hne : (sortFiles l).Pairwise fun a b => a.path ≠ b.path :=
    List.pairwise_map.mp hnd
  refine ((sortFiles_le_sorted l).and hne).imp ?_
  rintro a b ⟨hle, hnep⟩
  rcases hcmp : pcmp a.path b.path with _ | _ | _
  · rfl
  · exact absurd (pcmp_eq_iff.mp hcmp) hnep
  · exact absurd hcmp (pleB_iff.mp hle)

theorem sortDirs_sorted_lt {l : List Directory} (h : (l.map Directory.path).Nodup) :
    SortedDirsLt (sortDirs l) := by
  have hnd : ((sortDirs l).map Directory.path).Nodup :=
    (List.Perm.nodup_iff (List.Perm.map Directory.path (sortDirs_perm l))).mpr h
  have hne : (sortDirs l).Pairwise fun a b => a.path ≠ b.path :=
    List.pairwise_map.mp hnd
  refine ((sortDirs_le_sorted l).and hne).imp ?_
  rintro a b ⟨hle, hnep⟩
  rcases hcmp : pcmp a.path b.path with _ | _ | _
  · rfl
  · exact absurd (pcmp_eq_iff.mp hcmp) hnep
  · exact absurd hcmp (pleB_iff.mp hle)

theorem sorted_key_perm_eq {α : Type} (key : α → Path) :
    ∀ {l₁ l₂ : List α}, l₁.Pairwise (fun a b => pcmp (key a) (key b) = .lt) →
      l₂.Pairwise (fun a b => pcmp (key a) (key b) = .lt) → l₁.Perm l₂ → l₁ = l₂ := by
  intro l₁
  induction l₁ with
  | nil =>
    intro l₂ _ _ hp
    exact (List.Perm.eq_nil hp.symm).symm
  | cons a l₁ ih =>
    intro l₂ h₁ h₂ hp
    cases l₂ with
    | nil => exact absurd hp (by simp)
    | cons b l₂ =>
      have ha : a ∈ b :: l₂ := hp.mem_iff.mp (List.mem_cons_self a l₁)
      have hab : a = b := by
        rcases List.mem_cons.mp ha with h | h
        · exact h
        · have hba : pcmp (key b) (key a) = .lt := (List.pairwise_cons.mp h₂).1 a h
          have hb : b ∈ a :: l₁ := hp.symm.mem_iff.mp (List.mem_cons_self b l₂)
          rcases List.mem_cons.mp hb with h' | h'
          · exact h'.symm
          · have hab' : pcmp (key a) (key b) = .lt := (List.pairwise_cons.mp h₁).1 b h'
            exact (pcmp_lt_asymm hab' hba).elim
      subst hab
      rw [ih (List.pairwise_cons.mp h₁).2 (List.pairwise_cons.mp h₂).2 hp.cons_inv]

theorem mergeDirs_self : ∀ l, mergeDirs l l = ([], []) := by
  intro l
  induction l with
  | nil => simp [mergeDirs]
  | cons x xs ih => simp [mergeDirs, pcmp_self, ih]

theorem mergeFiles_self : ∀ l, mergeFiles l l = ([], []) := by
  intro l
  induction l with
  | nil => simp [mergeFiles]
  | cons x xs ih => simp [mergeFiles, pcmp_self, ih]

theorem not_mem_paths_of_head_lt {p : Path} {l : List Path}
    (h : ∀ q ∈ l, pcmp p q = .lt) : p ∉ l := by
  intro hm
  have := h p hm
  simp [pcmp_self] at this

theorem dirs_head_lt {x : Directory} {xs : List Directory} (h : SortedDirsLt (x :: xs)) :
    ∀ q ∈ xs.map Directory.path, pcmp x.path q = .lt := by
  intro q hq
  obtain ⟨d, hd, rfl⟩ := List.mem_map.mp hq
  exact (List.pairwise_cons.mp h).1 d hd

theorem files_head_lt {x : File} {xs : List File} (h : SortedFilesLt (x :: xs)) :
    ∀ q ∈ xs.map File.path, pcmp x.path q = .lt := by
  intro q hq
  obtain ⟨f, hf, rfl⟩ := List.mem_map.mp hq
  exact (List.pairwise_cons.mp h).1 f hf

theorem mergeDirs_apply_perm : ∀ s t : List Directory, SortedDirsLt s → SortedDirsLt t →
    (t.filter (fun d => decide (d.path ∉ (mergeDirs s t).2))
      ++ (mergeDirs s t).1.map Directory.mk).Perm s := by
  intro s t hs ht
  induction s, t using mergeDirs.induct with
  | case1 x xs y ys h ih =>
    simp only [mergeDirs, h]
    have hxy : x = y := by
      cases x
      cases y
      simp only [Directory.mk.injEq]
      exact pcmp_eq_iff.mp h
    subst hxy
    have hy2 : x.path ∉ (mergeDirs xs ys).2 := fun hm =>
      not_mem_paths_of_head_lt (dirs_head_lt ht) ((mergeDirs_remove_sublist xs ys).mem hm)
    rw [List.filter_cons_of_pos (by simpa using hy2)]
    exact List.Perm.cons x (ih (List.pairwise_cons.mp hs).2 (List.pairwise_cons.mp ht).2)
  | case2 x xs y ys h ih =>
    simp only [mergeDirs, List.map_cons]
    have hgoal :
        ((y :: ys).filter (fun d => decide (d.path ∉ (mergeDirs xs (y :: ys)).2))
          ++ Directory.mk x.path :: (mergeDirs xs (y :: ys)).1.map Directory.mk).Perm
          (x :: xs) := by
      have heta : Directory.mk x.path = x := rfl
      rw [heta]
      refine List.Perm.trans List.perm_middle ?_
      exact List.Perm.cons x (ih (List.pairwise_cons.mp hs).2 ht)
    simpa [h] using hgoal
  | case3 x xs y ys h ih =>
    simp only [mergeDirs, h]
    rw [List.filter_cons_of_neg (by simp)]
    have hcongr :
        ys.filter (fun d => decide (d.path ∉ y.path :: (mergeDirs (x :: xs) ys).2))
          = ys.filter (fun d => decide (d.path ∉ (mergeDirs (x :: xs) ys).2)) := by
      refine List.filter_congr ?_
      intro d hd
      have hne : d.path ≠ y.path := by
        intro he
        have := (List.pairwise_cons.mp ht).1 d hd
        rw [he, pcmp_self] at this
        simp at this
      simp [hne]
    rw [hcongr]
    exact ih hs (List.pairwise_cons.mp ht).2
  | case4 x xs ih =>
    simp only [mergeDirs_nil_right, List.filter_nil, List.nil_append, List.map_map]
    have : (Directory.mk ∘ Directory.path) = id := by
      funext d
      rfl
    rw [this, List.map_id]
  | case5 y ys ih =>
    simp only [mergeDirs_nil_left, List.map_nil, List.append_nil]
    have : (y :: ys).filter
        (fun d => decide (d.path ∉ (y :: ys).map Directory.path)) = [] := by
      rw [List.filter_eq_nil_iff]
      intro d hd
      have hmem : d.path ∈ (y :: ys).map Directory.path :=
        List.mem_map_of_mem Directory.path hd
      intro hdec
      rw [decide_eq_true_eq] at hdec
      exact hdec hmem
    rw [this]
  | case6 => simp [mergeDirs]

theorem mergeFiles_apply_perm : ∀ s t : List File, SortedFilesLt s → SortedFilesLt t →
    (t.filter (fun f => decide (f.path ∉ (mergeFiles s t).2 ∧ f.path ∉ (mergeFiles s t).1))
      ++ s.filter (fun f => decide (f.path ∈ (mergeFiles s t).1))).Perm s := by
  intro s t hs ht
  induction s, t using mergeFiles.induct with
  | case1 x xs y ys h hsz ih =>
    simp only [mergeFiles, h, if_pos hsz]
    have hxy : x.path = y.path := pcmp_eq_iff.mp h
    rw [List.filter_cons_of_neg (by simp [← hxy])]
    rw [List.filter_cons_of_pos (by simp)]
    have hys :
        ys.filter (fun f => decide (f.path ∉ (mergeFiles xs ys).2
            ∧ f.path ∉ x.path :: (mergeFiles xs ys).1))
          = ys.filter (fun f => decide (f.path ∉ (mergeFiles xs ys).2
            ∧ f.path ∉ (mergeFiles xs ys).1)) := by
      refine List.filter_congr ?_
      intro f hf
      have hlt := (List.pairwise_cons.mp ht).1 f hf
      have hne : f.path ≠ x.path := by
        intro he
        rw [hxy] at he
        rw [he, pcmp_self] at hlt
        simp at hlt
      simp [hne]
    have hxs :
        xs.filter (fun f => decide (f.path ∈ x.path :: (mergeFiles xs ys).1))
          = xs.filter (fun f => decide (f.path ∈ (mergeFiles xs ys).1)) := by
      refine List.filter_congr ?_
      intro f hf
      have hlt := (List.pairwise_cons.mp hs).1 f hf
      have hne : f.path ≠ x.path := by
        intro he
        rw [he, pcmp_self] at hlt
        simp at hlt
      simp [hne]
    rw [hys, hxs]
    refine List.Perm.trans List.perm_middle ?_
    exact List.Perm.cons x (ih (List.pairwise_cons.mp hs).2 (List.pairwise_cons.mp ht).2)
  | case2 x xs y ys h hsz ih =>
    simp only [mergeFiles, h, if_neg hsz]
    have hxy : x = y := by
      cases x
      cases y
      simp only [File.mk.injEq]
      exact ⟨pcmp_eq_iff.mp h, by simpa using hsz⟩
    subst hxy
    have h1 : x.path ∉ (mergeFiles xs ys).1 := fun hm =>
      not_mem_paths_of_head_lt (files_head_lt hs) ((mergeFiles_copy_sublist xs ys).mem hm)
    have h2 : x.path ∉ (mergeFiles xs ys).2 := fun hm =>
      not_mem_paths_of_head_lt (files_head_lt ht) ((mergeFiles_remove_sublist xs ys).mem hm)
    rw [List.filter_cons_of_pos (by simp [h1, h2])]
    rw [List.filter_cons_of_neg (by simp [h1])]
    exact List.Perm.cons x (ih (List.pairwise_cons.mp hs).2 (List.pairwise_cons.mp ht).2)
  | case3 x xs y ys h ih =>
    simp only [mergeFiles, h]
    have hne_t : ∀ f ∈ y :: ys, f.path ≠ x.path := by
      intro f hf he
      rcases List.mem_cons.mp hf with rfl | hf'
      · rw [he, pcmp_self] at h
        simp at h
      · have hlt := (List.pairwise_cons.mp ht).1 f hf'
        have := pcmp_lt_trans h hlt
        rw [he, pcmp_self] at this
        simp at this
    have hys :
        (y :: ys).filter (fun f => decide (f.path ∉ (mergeFiles xs (y :: ys)).2
            ∧ f.path ∉ x.path :: (mergeFiles xs (y :: ys)).1))
          = (y :: ys).filter (fun f => decide (f.path ∉ (mergeFiles xs (y :: ys)).2
            ∧ f.path ∉ (mergeFiles xs (y :: ys)).1)) := by
      refine List.filter_congr ?_
      intro f hf
      simp [hne_t f hf]
    have hxs :
        xs.filter (fun f => decide (f.path ∈ x.path :: (mergeFiles xs (y :: ys)).1))
          = xs.filter (fun f => decide (f.path ∈ (mergeFiles xs (y :: ys)).1)) := by
      refine List.filter_congr ?_
      intro f hf
      have hlt := (List.pairwise_cons.mp hs).1 f hf
      have hne : f.path ≠ x.path := by
        intro he
        rw [he, pcmp_self] at hlt
        simp at hlt
      simp [hne]
    have hxfull :
        (x :: xs).filter (fun f => decide (f.path ∈ x.path :: (mergeFiles xs (y :: ys)).1))
          = x :: xs.filter (fun f => decide (f.path ∈ (mergeFiles xs (y :: ys)).1)) := by
      rw [List.filter_cons_of_pos (by simp), hxs]
    rw [hys, hxfull]
    refine List.Perm.trans List.perm_middle ?_
    exact List.Perm.cons x (ih (List.pairwise_cons.mp hs).2 ht)
  | case4 x xs y ys h ih =>
    simp only [mergeFiles, h]
    rw [List.filter_cons_of_neg (by simp)]
    have hys :
        ys.filter (fun f => decide (f.path ∉ y.path :: (mergeFiles (x :: xs) ys).2
            ∧ f.path ∉ (mergeFiles (x :: xs) ys).1))
          = ys.filter (fun f => decide (f.path ∉ (mergeFiles (x :: xs) ys).2
            ∧ f.path ∉ (mergeFiles (x :: xs) ys).1)) := by
      refine List.filter_congr ?_
      intro f hf
      have hlt := (List.pairwise_cons.mp ht).1 f hf
      have hne : f.path ≠ y.path := by
        intro he
        rw [he, pcmp_self] at hlt
        simp at hlt
      simp [hne]
    rw [hys]
    exact ih hs (List.pairwise_cons.mp ht).2
  | case5 x xs ih =>
    simp only [mergeFiles_nil_right, List.filter_nil, List.nil_append]
    have : (x :: xs).filter
        (fun f => decide (f.path ∈ (x :: xs).map File.path)) = x :: xs := by
      rw [List.filter_eq_self]
      intro f hf
      rw [decide_eq_true_eq]
      exact List.mem_map_of_mem File.path hf
    rw [this]
  | case6 y ys ih =>
    simp only [mergeFiles_nil_left, List.filter_nil, List.append_nil]
    have : (y :: ys).filter
        (fun f => decide (f.path ∉ (y :: ys).map File.path ∧ f.path ∉ [])) = [] := by
      rw [List.filter_eq_nil_iff]
      intro f hf
      have hmem : f.path ∈ (y :: ys).map File.path := List.mem_map_of_mem File.path hf
      intro hdec
      rw [decide_eq_true_eq] at hdec
      exact hdec.1 hmem
    rw [this]
  | case7 => simp [mergeFiles]

theorem applySync_files_perm (source target : DirectoryScanList)
    (hS : SortedFilesLt (sortFiles source.files))
    (hT : SortedFilesLt (sortFiles target.files)) :
    ((applySync (Sync.unidirectional source target) source target).files).Perm
      (sortFiles source.files) := by
  simp only [applySync, unidirectional_remove_files, unidirectional_copy_files]
  refine List.Perm.trans
    (List.Perm.append
      (List.Perm.filter _ (sortFiles_perm target.files).symm)
      (List.Perm.filter _ (sortFiles_perm source.files).symm)) ?_
  exact mergeFiles_apply_perm (sortFiles source.files) (sortFiles target.files) hS hT

theorem applySync_dirs_perm (source target : DirectoryScanList)
    (hS : SortedDirsLt (sortDirs source.directories))
    (hT : SortedDirsLt (sortDirs target.directories)) :
    ((applySync (Sync.unidirectional source target) source target).directories).Perm
      (sortDirs source.directories) := by
  simp only [applySync, unidirectional_remove_directories, unidirectional_create_directories]
  refine List.Perm.trans
    (List.Perm.append
      (List.Perm.filter _ (sortDirs_perm target.directories).symm)
      (List.Perm.refl _)) ?_
  exact mergeDirs_apply_perm (sortDirs source.directories) (sortDirs target.directories) hS hT

theorem mem_map_cons_iff_file {p : Path} {x : File} {xs : List File} :
    p ∈ (x :: xs).map File.path ↔ p = x.path ∨ p ∈ xs.map File.path := by
  rw [List.map_cons, List.mem_cons]

theorem mergeFiles_mem_copy_iff :
    ∀ (s t : List File), SortedFilesLt s → SortedFilesLt t →
      ∀ {f g : File}, f ∈ s → g ∈ t → f.path = g.path →
        (f.path ∈ (mergeFiles s t).1 ↔ f.size ≠ g.size) := by
  intro s t hs ht
  induction s, t using mergeFiles.induct with
  | case1 x xs y ys h hsz ih =>
    intro f g hf hg hfg
    have hxy : x.path = y.path := pcmp_eq_iff.mp h
    rcases List.mem_cons.mp hf with rfl | hf' <;> rcases List.mem_cons.mp hg with rfl | hg'
    · simp only [mergeFiles, h, if_pos hsz]
      simp [hsz]
    · exfalso
      have hlt := (List.pairwise_cons.mp ht).1 g hg'
      rw [← hfg, ← hxy] at hlt
      rw [pcmp_self] at hlt
      simp at hlt
    · exfalso
      have hlt := (List.pairwise_cons.mp hs).1 f hf'
      rw [hfg, ← hxy] at hlt
      rw [pcmp_self] at hlt
      simp at hlt
    · have hne : f.path ≠ x.path := by
        intro he
        have hlt := (List.pairwise_cons.mp hs).1 f hf'
        rw [he, pcmp_self] at hlt
        simp at hlt
      simp only [mergeFiles, h, if_pos hsz, List.mem_cons]
      rw [iff_iff_implies_and_implies]
      constructor
      · rintro (he | hm)
        · exact absurd he hne
        · exact (ih (List.pairwise_cons.mp hs).2 (List.pairwise_cons.mp ht).2
            hf' hg' hfg).mp hm
      · intro hd
        exact Or.inr ((ih (List.pairwise_cons.mp hs).2 (List.pairwise_cons.mp ht).2
          hf' hg' hfg).mpr hd)
  | case2 x xs y ys h hsz ih =>
    intro f g hf hg hfg
    have hxy : x.path = y.path := pcmp_eq_iff.mp h
    rcases List.mem_cons.mp hf with rfl | hf' <;> rcases List.mem_cons.mp hg with rfl | hg'
    · simp only [mergeFiles, h, if_neg hsz]
      have h1 : f.path ∉ (mergeFiles xs ys).1 := fun hm =>
        not_mem_paths_of_head_lt (files_head_lt hs) ((mergeFiles_copy_sublist xs ys).mem hm)
      simp only [ne_eq, not_not] at hsz
      simp [h1, hsz]
    · exfalso
      have hlt := (List.pairwise_cons.mp ht).1 g hg'
      rw [← hfg, ← hxy] at hlt
      rw [pcmp_self] at hlt
      simp at hlt
    · exfalso
      have hlt := (List.pairwise_cons.mp hs).1 f hf'
      rw [hfg, ← hxy] at hlt
      rw [pcmp_self] at hlt
      simp at hlt
    · simp only [mergeFiles, h, if_neg hsz]
      exact ih (List.pairwise_cons.mp hs).2 (List.pairwise_cons.mp ht).2 hf' hg' hfg
  | case3 x xs y ys h ih =>
    intro f g hf hg hfg
    have hfx : f.path ≠ x.path ∨ f ∈ xs := by
      rcases List.mem_cons.mp hf with rfl | hf'
      · exfalso
        rcases List.mem_cons.mp hg with rfl | hg'
        · rw [hfg, pcmp_self] at h
          simp at h
        · have hlt := (List.pairwise_cons.mp ht).1 g hg'
          have := pcmp_lt_trans h hlt
          rw [← hfg, pcmp_self] at this
          simp at this
      · exact Or.inr hf'
    have hf' : f ∈ xs := by
      rcases hfx with hne | hf'
      · rcases List.mem_cons.mp hf with rfl | hf'
        · exact absurd rfl hne
        · exact hf'
      · exact hf'
    have hne : f.path ≠ x.path := by
      intro he
      have hlt := (List.pairwise_cons.mp hs).1 f hf'
      rw [he, pcmp_self] at hlt
      simp at hlt
    simp only [mergeFiles, h, List.mem_cons]
    rw [iff_iff_implies_and_implies]
    constructor
    · rintro (he | hm)
      · exact absurd he hne
      · exact (ih (List.pairwise_cons.mp hs).2 ht hf' hg hfg).mp hm
    · intro hd
      exact Or.inr ((ih (List.pairwise_cons.mp hs).2 ht hf' hg hfg).mpr hd)
  | case4 x xs y ys h ih =>
    intro f g hf hg hfg
    have hg' : g ∈ ys := by
      rcases List.mem_cons.mp hg with rfl | hg'
      · exfalso
        rcases List.mem_cons.mp hf with rfl | hf'
        · rw [hfg, pcmp_self] at h
          simp at h
        · have hlt := (List.pairwise_cons.mp hs).1 f hf'
          have hyx : pcmp g.path x.path = .lt := pcmp_gt_iff.mp h
          have := pcmp_lt_trans hyx hlt
          rw [← hfg, pcmp_self] at this
          simp at this
      · exact hg'
    simp only [mergeFiles, h]
    exact ih hs (List.pairwise_cons.mp ht).2 hf hg' hfg
  | case5 x xs ih =>
    intro f g hf hg hfg
    exact absurd hg (List.not_mem_nil g)
  | case6 y ys ih =>
    intro f g hf hg hfg
    exact absurd hf (List.not_mem_nil f)
  | case7 =>
    intro f g hf hg hfg
    exact absurd hf (List.not_mem_nil f)

theorem mergeFiles_not_mem_remove :
    ∀ (s t : List File), SortedFilesLt s → SortedFilesLt t →
      ∀ {p : Path}, p ∈ s.map File.path → p ∈ t.map File.path →
        p ∉ (mergeFiles s t).2 := by
  intro s t hs ht
  induction s, t using mergeFiles.induct with
  | case1 x xs y ys h hsz ih =>
    intro p hps hpt
    have hxy : x.path = y.path := pcmp_eq_iff.mp h
    simp only [mergeFiles, h, if_pos hsz]
    by_cases hpx : p = x.path
    · intro hm
      have hmem : p ∈ ys.map File.path := (mergeFiles_remove_sublist xs ys).mem hm
      have hnm : y.path ∉ ys.map File.path := not_mem_paths_of_head_lt (files_head_lt ht)
      rw [← hxy] at hnm
      exact hnm (hpx ▸ hmem)
    · have hps' : p ∈ xs.map File.path := by
        rcases mem_map_cons_iff_file.mp hps with he | hm
        · exact absurd he hpx
        · exact hm
      have hpt' : p ∈ ys.map File.path := by
        rcases mem_map_cons_iff_file.mp hpt with he | hm
        · rw [← hxy] at he
          exact absurd he hpx
        · exact hm
      exact ih (List.pairwise_cons.mp hs).2 (List.pairwise_cons.mp ht).2 hps' hpt'
  | case2 x xs y ys h hsz ih =>
    intro p hps hpt
    have hxy : x.path = y.path := pcmp_eq_iff.mp h
    simp only [mergeFiles, h, if_neg hsz]
    by_cases hpx : p = x.path
    · intro hm
      have hmem : p ∈ ys.map File.path := (mergeFiles_remove_sublist xs ys).mem hm
      have hnm : y.path ∉ ys.map File.path := not_mem_paths_of_head_lt (files_head_lt ht)
      rw [← hxy] at hnm
      exact hnm (hpx ▸ hmem)
    · have hps' : p ∈ xs.map File.path := by
        rcases mem_map_cons_iff_file.mp hps with he | hm
        · exact absurd he hpx
        · exact hm
      have hpt' : p ∈ ys.map File.path := by
        rcases mem_map_cons_iff_file.mp hpt with he | hm
        · rw [← hxy] at he
          exact absurd he hpx
        · exact hm
      exact ih (List.pairwise_cons.mp hs).2 (List.pairwise_cons.mp ht).2 hps' hpt'
  | case3 x xs y ys h ih =>
    intro p hps hpt
    simp only [mergeFiles, h]
    have hpx : p ≠ x.path := by
      intro he
      rcases mem_map_cons_iff_file.mp hpt with he' | hm
      · rw [he] at he'
        rw [he'] at h
        rw [pcmp_self] at h
        simp at h
      · obtain ⟨g, hg, hgp⟩ := List.mem_map.mp hm
        have hlt := (List.pairwise_cons.mp ht).1 g hg
        have := pcmp_lt_trans h hlt
        rw [hgp, he, pcmp_self] at this
        simp at this
    have hps' : p ∈ xs.map File.path := by
      rcases mem_map_cons_iff_file.mp hps with he | hm
      · exact absurd he hpx
      · exact hm
    exact ih (List.pairwise_cons.mp hs).2 ht hps' hpt
  | case4 x xs y ys h ih =>
    intro p hps hpt
    simp only [mergeFiles, h]
    have hpy : p ≠ y.path := by
      intro he
      rcases mem_map_cons_iff_file.mp hps with he' | hm
      · rw [he'] at he
        rw [he] at h
        rw [pcmp_self] at h
        simp at h
      · obtain ⟨f, hf, hfp⟩ := List.mem_map.mp hm
        have hlt := (List.pairwise_cons.mp hs).1 f hf
        have hyx := pcmp_gt_iff.mp h
        have := pcmp_lt_trans hyx hlt
        rw [hfp, he, pcmp_self] at this
        simp at this
    have hpt' : p ∈ ys.map File.path := by
      rcases mem_map_cons_iff_file.mp hpt with he | hm
      · exact absurd he hpy
      · exact hm
    intro hm
    rcases List.mem_cons.mp hm with he | hm'
    · exact hpy he
    · exact ih hs (List.pairwise_cons.mp ht).2 hps hpt' hm'
  | case5 x xs ih =>
    intro p hps hpt
    exact absurd hpt (by simp)
  | case6 y ys ih =>
    intro p hps hpt
    exact absurd hps (by simp)
  | case7 =>
    intro p hps hpt
    exact absurd hps (by simp)

theorem plan_copy_files_sorted (source target : DirectoryScanList)
    (hsf : (source.files.map File.path).Nodup) :
    ((Sync.unidirectional source target).copy_files).Pairwise fun p q => pcmp p q = .lt := by
  rw [unidirectional_copy_files]
  refine List.Pairwise.sublist (mergeFiles_copy_sublist _ _) ?_
  exact List.pairwise_map.mpr (sortFiles_sorted_lt hsf)

theorem plan_remove_files_sorted (source target : DirectoryScanList)
    (htf : (target.files.map File.path).Nodup) :
    ((Sync.unidirectional source target).remove_files).Pairwise fun p q => pcmp p q = .lt := by
  rw [unidirectional_remove_files]
  refine List.Pairwise.sublist (mergeFiles_remove_sublist _ _) ?_
  exact List.pairwise_map.mpr (sortFiles_sorted_lt htf)

theorem plan_create_directories_sorted (source target : DirectoryScanList)
    (hsd : (source.directories.map Directory.path).Nodup) :
    ((Sync.unidirectional source target).create_directories).Pairwise
      fun p q => pcmp p q = .lt := by
  rw [unidirectional_create_directories]
  refine List.Pairwise.sublist (mergeDirs_create_sublist _ _) ?_
  exact List.pairwise_map.mpr (sortDirs_sorted_lt hsd)

theorem plan_remove_directories_sorted (source target : DirectoryScanList)
    (htd : (target.directories.map Directory.path).Nodup) :
    ((Sync.unidirectional source target).remove_directories).Pairwise
      fun p q => pcmp p q = .lt := by
  rw [unidirectional_remove_directories]
  refine List.Pairwise.sublist (mergeDirs_remove_sublist _ _) ?_
  exact List.pairwise_map.mpr (sortDirs_sorted_lt htd)

theorem pairwise_lt_index {l : List Path} (h : l.Pairwise fun p q => pcmp p q = .lt)
    {p q : Path} (hpq : pcmp p q = .lt) :
    ∀ (i j : Fin l.length), l.get i = p → l.get j = q → i < j := by
  intro i j hi hj
  rcases lt_trichotomy i j with h' | h' | h'
  · exact h'
  · exfalso
    rw [Fin.ext_iff] at h'
    have : p = q := by
      rw [← hi, ← hj]
      congr 1
      exact Fin.ext h'
    rw [this, pcmp_self] at hpq
    simp at hpq
  · exfalso
    have := (List.pairwise_iff_get.mp h) j i h'
    rw [hi, hj] at this
    exact pcmp_lt_asymm hpq this

theorem nodup_of_pairwise_lt {l : List Path} (h : l.Pairwise fun p q => pcmp p q = .lt) :
    l.Nodup := by
  refine h.imp ?_
  intro a b hab he
  rw [he, pcmp_self] at hab
  simp at hab

end GitRepoSync

namespace GitRepoSync

theorem pairwise_of_all {α : Type} {R : α → α → Prop} (h : ∀ a b, R a b) :
    ∀ l : List α, l.Pairwise R := by
  intro l
  induction l with
  | nil => exact List.Pairwise.nil
  | cons a l ih => exact List.Pairwise.cons (fun b _ => h a b) ih

/-- C6: the batched remote file-transfer session receives only `rm`
(`remove_files`), `mkdir` (`create_directories`) and `put` (`copy_files`)
instructions, in that phase order; no directory-removal instruction is ever
issued and the `remove_directories` list is left entirely unused. -/
theorem C6_remote_skips_directory_removal
    (s : Sync) (local_path remote_path : Path) :
    (∀ c ∈ s.execute_remote_batch local_path remote_path,
      (∃ p, c = .rm p) ∨ (∃ p, c = .mkdir p) ∨ (∃ a b, c = .put a b)) ∧
    (∀ c ∈ s.execute_remote_batch local_path remote_path, ∀ p, c ≠ .rmdir p) ∧
    ((s.execute_remote_batch local_path remote_path).Pairwise
      fun a b => a.phase ≤ b.phase) ∧
    (∀ rd, Sync.execute_remote_batch { s with remove_directories := rd }
        local_path remote_path
      = s.execute_remote_batch local_path remote_path) := by
  refine ⟨?_, ?_, ?_, fun rd => rfl⟩
  · intro c hc
    simp only [Sync.execute_remote_batch, List.mem_append, List.mem_map] at hc
    rcases hc with (⟨f, _, rfl⟩ | ⟨d, _, rfl⟩) | ⟨f, _, rfl⟩
    · exact Or.inl ⟨_, rfl⟩
    · exact Or.inr (Or.inl ⟨_, rfl⟩)
    · exact Or.inr (Or.inr ⟨_, _, rfl⟩)
  · intro c hc p
    simp only [Sync.execute_remote_batch, List.mem_append, List.mem_map] at hc
    rcases hc with (⟨f, _, rfl⟩ | ⟨d, _, rfl⟩) | ⟨f, _, rfl⟩ <;> simp
  · rw [Sync.execute_remote_batch]
    refine List.pairwise_append.mpr ⟨List.pairwise_append.mpr ⟨?_, ?_, ?_⟩, ?_, ?_⟩
    · refine List.pairwise_map.mpr (pairwise_of_all ?_ _)
      intro a b
      simp [SftpCmd.phase]
    · refine List.pairwise_map.mpr (pairwise_of_all ?_ _)
      intro a b
      simp [SftpCmd.phase]
    · intro a ha b hb
      simp only [List.mem_map] at ha hb
      obtain ⟨_, _, rfl⟩ := ha
      obtain ⟨_, _, rfl⟩ := hb
      simp [SftpCmd.phase]
    · refine List.pairwise_map.mpr (pairwise_of_all ?_ _)
      intro a b
      simp [SftpCmd.phase]
    · intro a ha b hb
      simp only [List.mem_append, List.mem_map] at ha
      simp only [List.mem_map] at hb
      obtain ⟨_, _, rfl⟩ := hb
      rcases ha with ⟨_, _, rfl⟩ | ⟨_, _, rfl⟩ <;> simp [SftpCmd.phase]

/-- Closed witness for C6: the `rm` instruction of a concrete plan is one of
the three permitted instruction shapes. -/
theorem C6_remote_skips_directory_removal_witness :
    (SftpCmd.rm ["r", "x"]
      ∈ Sync.execute_remote_batch ⟨[["x"]], [["gone"]], [["c"]], [["f"]]⟩ ["l"] ["r"]) ∧
    ((∃ p, SftpCmd.rm ["r", "x"] = .rm p) ∨ (∃ p, SftpCmd.rm ["r", "x"] = .mkdir p)
      ∨ (∃ a b, SftpCmd.rm ["r", "x"] = .put a b)) :=
  ⟨by decide,
    (C6_remote_skips_directory_removal ⟨[["x"]], [["gone"]], [["c"]], [["f"]]⟩
      ["l"] ["r"]).1 _ (by decide)⟩

/-- C7: a step of the guarded directory-removal loop of `execute_local`: for
a directory that exists at the moment of removal, a non-empty directory is
silently left in place with no error, an empty one is removed; in
particular, a local execution whose plan removes one non-empty directory
completes successfully leaving the filesystem unchanged. -/
theorem C7_guarded_local_directory_removal (fs : FS) (d : Path) (h : d ∈ fs.dirs) :
    (fs.dirNonEmpty d = true → removeDirStep fs d = .ok fs) ∧
    (fs.dirNonEmpty d = false →
      removeDirStep fs d = .ok { fs with dirs := fs.dirs.erase d }) ∧
    (fs.dirNonEmpty d = true → ∀ rp,
      Sync.execute_local_model ⟨[], [d], [], []⟩ [] rp fs = .ok (fs, [])) := by
  refine ⟨?_, ?_, ?_⟩
  · intro hne
    simp [removeDirStep, h, hne]
  · intro hne
    simp [removeDirStep, h, hne]
  · intro hne rp
    simp [Sync.execute_local_model, removeDirStep, h, hne]

/-- Closed witness for C7 at the spec's Example 5 filesystem: `kept` is
non-empty at removal time and is silently left in place. -/
theorem C7_guarded_local_directory_removal_witness :
    (["kept"] ∈ (FS.mk [["kept"], ["empty"]] [["kept", "x"]]).dirs) ∧
    removeDirStep (FS.mk [["kept"], ["empty"]] [["kept", "x"]]) ["kept"]
      = .ok (FS.mk [["kept"], ["empty"]] [["kept", "x"]]) :=
  ⟨by decide,
    (C7_guarded_local_directory_removal
      (FS.mk [["kept"], ["empty"]] [["kept", "x"]]) ["kept"] (by decide)).1 (by decide)⟩

/-- C1: `execute_local` does create every planned directory before any copy
instruction is issued, but not under the target root: `create_dir_all` is
called on the plan-relative path (`sync.rs:226`), so with target root `t`
and planned directory `sub` the directory appears at `sub` and not at
`t/sub`, and the parent `t/sub` of the copy destination `t/sub/a.txt` does
not exist under the target root when the copy is attempted. -/
theorem C1_create_dirs_not_under_target_root :
    Sync.execute_local_model ⟨[], [], [["sub"]], [["sub", "a.txt"]]⟩ ["t"] ["r"]
        ⟨[["t"]], []⟩
      = .ok (⟨[["t"], ["sub"]], []⟩,
          [.get ["r", "sub", "a.txt"] ["t", "sub", "a.txt"]]) ∧
    ["sub"] ∈ (FS.mk [["t"], ["sub"]] []).dirs ∧
    ["t", "sub"] ∉ (FS.mk [["t"], ["sub"]] []).dirs := by
  refine ⟨rfl, by decide, by decide⟩

/-- C2: on a failing run — concretely the malformed remote descriptor
`myhost`, which makes `run()` return an error — the program prints exactly
one diagnostic line to the error stream, but `main` returns normally in both
branches, so the process exit status is 0, not non-zero. -/
theorem C2_failure_prints_once_but_exits_zero :
    remoteFromStr "myhost" = .error "invalid remote: myhost" ∧
    mainModel (.error "invalid remote: myhost")
      = (0, ["error: invalid remote: myhost"]) ∧
    mainModel (.ok ()) = (0, []) := by
  refine ⟨rfl, rfl, rfl⟩

/-- C3: for snapshots with unique paths per side and disjoint directory/file
sets, applying the Plan of `Sync::unidirectional` in full to the target
snapshot (remove the `remove_files` and `remove_directories` entries, add the
`create_directories` entries, add or overwrite the `copy_files` entries with
the source's size) and reconciling the same source against the result yields
a Plan whose four lists are all empty. -/
theorem C3_reconcile_apply_idempotent
    (source target : DirectoryScanList)
    (hsd : (source.directories.map Directory.path).Nodup)
    (hsf : (source.files.map File.path).Nodup)
    (htd : (target.directories.map Directory.path).Nodup)
    (htf : (target.files.map File.path).Nodup)
    (hsdisj : ∀ p ∈ source.directories.map Directory.path, p ∉ source.files.map File.path)
    (htdisj : ∀ p ∈ target.directories.map Directory.path, p ∉ target.files.map File.path) :
    Sync.unidirectional source (applySync (Sync.unidirectional source target) source target)
      = { remove_files := [], remove_directories := [], create_directories := [],
          copy_files := [] } := by
  have hS : SortedFilesLt (sortFiles source.files) := sortFiles_sorted_lt hsf
  have hT : SortedFilesLt (sortFiles target.files) := sortFiles_sorted_lt htf
  have hSD : SortedDirsLt (sortDirs source.directories) := sortDirs_sorted_lt hsd
  have hTD : SortedDirsLt (sortDirs target.directories) := sortDirs_sorted_lt htd
  set target' := applySync (Sync.unidirectional source target) source target with htgt
  have hfperm : target'.files.Perm (sortFiles source.files) :=
    applySync_files_perm source target hS hT
  have hdperm : target'.directories.Perm (sortDirs source.directories) :=
    applySync_dirs_perm source target hSD hTD
  have hfnd : (target'.files.map File.path).Nodup := by
    refine (List.Perm.nodup_iff (List.Perm.map File.path hfperm)).mpr ?_
    exact (List.Perm.nodup_iff
      (List.Perm.map File.path (sortFiles_perm source.files))).mpr hsf
  have hdnd : (target'.directories.map Directory.path).Nodup := by
    refine (List.Perm.nodup_iff (List.Perm.map Directory.path hdperm)).mpr ?_
    exact (List.Perm.nodup_iff
      (List.Perm.map Directory.path (sortDirs_perm source.directories))).mpr hsd
  have hfeq : sortFiles target'.files = sortFiles source.files :=
    sorted_key_perm_eq File.path (sortFiles_sorted_lt hfnd) hS
      ((sortFiles_perm target'.files).trans hfperm)
  have hdeq : sortDirs target'.directories = sortDirs source.directories :=
    sorted_key_perm_eq Directory.path (sortDirs_sorted_lt hdnd) hSD
      ((sortDirs_perm target'.directories).trans hdperm)
  show Sync.unidirectional source target' = _
  simp only [Sync.unidirectional, hfeq, hdeq, mergeFiles_self, mergeDirs_self]

/-- C4: each of the four lists of the Plan produced by `Sync::unidirectional`
is emitted in strictly ascending lexicographic order of path-component
sequences; in particular, whenever a directory path `p` is a strict ancestor
(strict component prefix) of a directory path `q` and both are in
`create_directories` (or both in `remove_directories`), `p` appears before
`q`. -/
theorem C4_plan_ordering
    (source target : DirectoryScanList)
    (hsd : (source.directories.map Directory.path).Nodup)
    (hsf : (source.files.map File.path).Nodup)
    (htd : (target.directories.map Directory.path).Nodup)
    (htf : (target.files.map File.path).Nodup) :
    ((Sync.unidirectional source target).create_directories.Pairwise
      fun p q => pcmp p q = .lt)
    ∧ ((Sync.unidirectional source target).remove_directories.Pairwise
      fun p q => pcmp p q = .lt)
    ∧ ((Sync.unidirectional source target).copy_files.Pairwise
      fun p q => pcmp p q = .lt)
    ∧ ((Sync.unidirectional source target).remove_files.Pairwise
      fun p q => pcmp p q = .lt)
    ∧ (∀ p q, strictAncestor p q →
        ∀ (i j : Fin (Sync.unidirectional source target).create_directories.length),
          (Sync.unidirectional source target).create_directories.get i = p →
          (Sync.unidirectional source target).create_directories.get j = q → i < j)
    ∧ (∀ p q, strictAncestor p q →
        ∀ (i j : Fin (Sync.unidirectional source target).remove_directories.length),
          (Sync.unidirectional source target).remove_directories.get i = p →
          (Sync.unidirectional source target).remove_directories.get j = q → i < j) := by
  refine ⟨plan_create_directories_sorted source target hsd,
          plan_remove_directories_sorted source target htd,
          plan_copy_files_sorted source target hsf,
          plan_remove_files_sorted source target htf, ?_, ?_⟩
  · intro p q hpq i j hi hj
    exact pairwise_lt_index (plan_create_directories_sorted source target hsd)
      (strictAncestor_lt hpq) i j hi hj
  · intro p q hpq i j hi hj
    exact pairwise_lt_index (plan_remove_directories_sorted source target htd)
      (strictAncestor_lt hpq) i j hi hj

/-- Closed witness for C4 at a concrete pair of snapshots with nested
directories. -/
theorem C4_plan_ordering_witness :
    ((([⟨["a"]⟩, ⟨["a", "b"]⟩] : List Directory).map Directory.path).Nodup) ∧
    ((Sync.unidirectional ⟨[⟨["a"]⟩, ⟨["a", "b"]⟩], [⟨["f"], 1⟩]⟩
        ⟨[⟨["z"]⟩, ⟨["z", "w"]⟩], [⟨["g"], 2⟩]⟩).create_directories.Pairwise
      fun p q => pcmp p q = .lt) :=
  ⟨by decide,
    (C4_plan_ordering ⟨[⟨["a"]⟩, ⟨["a", "b"]⟩], [⟨["f"], 1⟩]⟩
      ⟨[⟨["z"]⟩, ⟨["z", "w"]⟩], [⟨["g"], 2⟩]⟩
      (by decide) (by decide) (by decide) (by decide)).1⟩

/-- C5: for a path present as a file on both sides (snapshots with unique
paths per side and no path both directory and file on one side), the path is
in `copy_files` iff the two sizes differ; with equal sizes it is in none of
the four lists. -/
theorem C5_size_only_equality
    (source target : DirectoryScanList)
    (hsd : (source.directories.map Directory.path).Nodup)
    (hsf : (source.files.map File.path).Nodup)
    (htd : (target.directories.map Directory.path).Nodup)
    (htf : (target.files.map File.path).Nodup)
    (hsdisj : ∀ p ∈ source.directories.map Directory.path, p ∉ source.files.map File.path)
    (htdisj : ∀ p ∈ target.directories.map Directory.path, p ∉ target.files.map File.path)
    {f g : File} (hf : f ∈ source.files) (hg : g ∈ target.files)
    (hfg : f.path = g.path) :
    (f.path ∈ (Sync.unidirectional source target).copy_files ↔ f.size ≠ g.size) ∧
    (f.size = g.size →
      f.path ∉ (Sync.unidirectional source target).copy_files ∧
      f.path ∉ (Sync.unidirectional source target).remove_files ∧
      f.path ∉ (Sync.unidirectional source target).create_directories ∧
      f.path ∉ (Sync.unidirectional source target).remove_directories) := by
  have hS := sortFiles_sorted_lt hsf
  have hT := sortFiles_sorted_lt htf
  have hfS : f ∈ sortFiles source.files := ((sortFiles_perm source.files).mem_iff).mpr hf
  have hgT : g ∈ sortFiles target.files := ((sortFiles_perm target.files).mem_iff).mpr hg
  have hiff : f.path ∈ (Sync.unidirectional source target).copy_files ↔ f.size ≠ g.size := by
    rw [unidirectional_copy_files]
    exact mergeFiles_mem_copy_iff _ _ hS hT hfS hgT hfg
  refine ⟨hiff, ?_⟩
  intro hsz
  refine ⟨fun hm => (hiff.mp hm) hsz, ?_, ?_, ?_⟩
  · rw [unidirectional_remove_files]
    refine mergeFiles_not_mem_remove _ _ hS hT (List.mem_map_of_mem File.path hfS) ?_
    rw [hfg]
    exact List.mem_map_of_mem File.path hgT
  · intro hm
    rw [unidirectional_create_directories] at hm
    have h1 : f.path ∈ (sortDirs source.directories).map Directory.path :=
      (mergeDirs_create_sublist _ _).mem hm
    have h2 : f.path ∈ source.directories.map Directory.path :=
      ((List.Perm.map Directory.path (sortDirs_perm source.directories)).mem_iff).mp h1
    exact hsdisj f.path h2 (List.mem_map_of_mem File.path hf)
  · intro hm
    rw [unidirectional_remove_directories] at hm
    have h1 : f.path ∈ (sortDirs target.directories).map Directory.path :=
      (mergeDirs_remove_sublist _ _).mem hm
    have h2 : f.path ∈ target.directories.map Directory.path :=
      ((List.Perm.map Directory.path (sortDirs_perm target.directories)).mem_iff).mp h1
    refine htdisj f.path h2 ?_
    rw [hfg]
    exact List.mem_map_of_mem File.path hg

/-- Closed witness for C5: a file of equal size on both sides is not
copied. -/
theorem C5_size_only_equality_witness :
    (⟨["a"], 3⟩ : File).path
      ∉ (Sync.unidirectional ⟨[], [⟨["a"], 3⟩]⟩ ⟨[], [⟨["a"], 3⟩]⟩).copy_files :=
  ((C5_size_only_equality ⟨[], [⟨["a"], 3⟩]⟩ ⟨[], [⟨["a"], 3⟩]⟩
    (by decide) (by decide) (by decide) (by decide) (by decide) (by decide)
    (by decide) (by decide) rfl).2 rfl).1

/-- C8: for input snapshots with unique paths per side, no path occurs twice
within any single output list of `Sync::unidirectional`, and no path occurs
in both `remove_files` and `copy_files`. -/
theorem C8_plan_disjointness
    (source target : DirectoryScanList)
    (hsd : (source.directories.map Directory.path).Nodup)
    (hsf : (source.files.map File.path).Nodup)
    (htd : (target.directories.map Directory.path).Nodup)
    (htf : (target.files.map File.path).Nodup) :
    (Sync.unidirectional source target).remove_files.Nodup ∧
    (Sync.unidirectional source target).remove_directories.Nodup ∧
    (Sync.unidirectional source target).create_directories.Nodup ∧
    (Sync.unidirectional source target).copy_files.Nodup ∧
    ∀ p, p ∈ (Sync.unidirectional source target).remove_files →
      p ∈ (Sync.unidirectional source target).copy_files → False := by
  refine ⟨nodup_of_pairwise_lt (plan_remove_files_sorted source target htf),
          nodup_of_pairwise_lt (plan_remove_directories_sorted source target htd),
          nodup_of_pairwise_lt (plan_create_directories_sorted source target hsd),
          nodup_of_pairwise_lt (plan_copy_files_sorted source target hsf), ?_⟩
  intro p hrm hcp
  rw [unidirectional_remove_files] at hrm
  rw [unidirectional_copy_files] at hcp
  have hS := sortFiles_sorted_lt hsf
  have hT := sortFiles_sorted_lt htf
  exact mergeFiles_not_mem_remove _ _ hS hT
    ((mergeFiles_copy_sublist _ _).mem hcp)
    ((mergeFiles_remove_sublist _ _).mem hrm) hrm

/-- Closed witness for C8 at a concrete pair of snapshots. -/
theorem C8_plan_disjointness_witness :
    (([⟨["a", "x"], 3⟩, ⟨["y"], 9⟩] : List File).map File.path).Nodup ∧
    (Sync.unidirectional ⟨[⟨["a"]⟩], [⟨["a", "x"], 3⟩, ⟨["y"], 9⟩]⟩
      ⟨[⟨["c"]⟩], [⟨["a", "x"], 5⟩, ⟨["old"], 1⟩]⟩).remove_files.Nodup :=
  ⟨by decide,
    (C8_plan_disjointness ⟨[⟨["a"]⟩], [⟨["a", "x"], 3⟩, ⟨["y"], 9⟩]⟩
      ⟨[⟨["c"]⟩], [⟨["a", "x"], 5⟩, ⟨["old"], 1⟩]⟩
      (by decide) (by decide) (by decide) (by decide)).1⟩

theorem splitOnceChar_not_mem {c : Char} : ∀ {s : List Char}, c ∉ s →
    splitOnceChar c s = none := by
  intro s
  induction s with
  | nil => intro _; rfl
  | cons a rest ih =>
    intro h
    have ha : a ≠ c := fun he => h (he ▸ List.mem_cons_self a rest)
    have hr : c ∉ rest := fun hm => h (List.mem_cons_of_mem a hm)
    simp [splitOnceChar, ha, ih hr]

theorem splitOnceChar_append {c : Char} : ∀ (h d : List Char), c ∉ h →
    splitOnceChar c (h ++ c :: d) = some (h, d) := by
  intro h
  induction h with
  | nil => intro d _; simp [splitOnceChar]
  | cons a rest ih =>
    intro d hmem
    have ha : a ≠ c := fun he => hmem (he ▸ List.mem_cons_self a rest)
    have hr : c ∉ rest := fun hm => hmem (List.mem_cons_of_mem a hm)
    simp [splitOnceChar, ha, ih d hr]

theorem stripHomeTilde_of_head_ne {q : List Char} (h : q.head? ≠ some '~') :
    stripHomeTilde q = q := by
  cases q with
  | nil => rfl
  | cons a rest =>
    have ha : a ≠ '~' := by
      intro he
      exact h (by rw [he]; rfl)
    cases rest with
    | nil => simp [stripHomeTilde, ha]
    | cons b rest' =>
      rw [stripHomeTilde.eq_def]
      split
      · rename_i heq
        rw [List.cons.injEq] at heq
        exact absurd heq.1 ha
      · rename_i heq
        rw [List.cons.injEq] at heq
        exact absurd heq.1 ha
      · rfl

theorem stripTrailingSep_concat_sep (p : List Char) :
    stripTrailingSep (p ++ ['/']) = p := by
  have h1 : (p ++ ['/']) ≠ [] := by simp
  have h2 : (p ++ ['/']).getLast? = some '/' := by
    rw [List.getLast?_concat]
  simp [stripTrailingSep, h1, h2, List.dropLast_concat]

theorem stripTrailingSep_of_last_ne {p : List Char} (h : p.getLast? ≠ some '/') :
    stripTrailingSep p = p := by
  by_cases hp : p = []
  · subst hp; rfl
  · simp [stripTrailingSep, hp, h]

theorem getLast?_cons_ne {α : Type} {a : α} {l : List α} (h : l ≠ []) :
    (a :: l).getLast? = l.getLast? := by
  cases l with
  | nil => exact absurd rfl h
  | cons b m => exact List.getLast?_cons_cons

theorem dropWhile_slash_of_head {q : List Char} (h : q.head? ≠ some '/') :
    q.dropWhile (fun c => c == '/') = q := by
  cases q with
  | nil => rfl
  | cons c cs =>
    have hc : c ≠ '/' := fun he => h (by rw [he]; rfl)
    simp [List.dropWhile_cons, hc]

theorem head?_append_left {α : Type} {q r : List α} (h : q ≠ []) :
    (q ++ r).head? = q.head? := by
  cases q with
  | nil => exact absurd rfl h
  | cons c cs => rfl

theorem stripHomeTilde_tilde_slash (q : List Char) :
    stripHomeTilde ('~' :: '/' :: q) = q.dropWhile (fun c => c == '/') := rfl

/-- C10: `Remote::from_str` splits at the first `:` (everything after it,
further colons included, becomes the directory); at most one trailing
separator is stripped; a leading `~/` is stripped so `host:~/p` and `host:p`
parse to the same remote; a string with no `:` is the only parse failure. -/
theorem C10_remote_descriptor_normalization :
    (∀ h d : List Char, ':' ∉ h →
      remoteFromStr (String.mk (h ++ ':' :: d))
        = .ok ⟨⟨String.mk h⟩, stripHomeTilde (stripTrailingSep d)⟩) ∧
    (∀ s : String, ':' ∉ s.data →
      remoteFromStr s = .error ("invalid remote: " ++ s)) ∧
    (∀ h p : List Char, ':' ∉ h → p.head? ≠ some '/' → p.head? ≠ some '~' →
      remoteFromStr (String.mk (h ++ ':' :: '~' :: '/' :: p))
        = remoteFromStr (String.mk (h ++ ':' :: p))) ∧
    (∀ h p : List Char, ':' ∉ h → p.head? ≠ some '~' →
      remoteFromStr (String.mk (h ++ ':' :: (p ++ ['/', '/'])))
        = .ok ⟨⟨String.mk h⟩, p ++ ['/']⟩) := by
  have hok : ∀ h d : List Char, ':' ∉ h →
      remoteFromStr (String.mk (h ++ ':' :: d))
        = .ok ⟨⟨String.mk h⟩, stripHomeTilde (stripTrailingSep d)⟩ := by
    intro h d hmem
    simp [remoteFromStr, splitOnceChar_append h d hmem]
  refine ⟨hok, ?_, ?_, ?_⟩
  · intro s hmem
    simp [remoteFromStr, splitOnceChar_not_mem hmem]
  · intro h p hmem hsl htl
    rw [hok h _ hmem, hok h _ hmem]
    suffices hdir : stripHomeTilde (stripTrailingSep ('~' :: '/' :: p))
        = stripHomeTilde (stripTrailingSep p) by rw [hdir]
    by_cases hpn : p = []
    · subst hpn
      decide
    · by_cases hpl : p.getLast? = some '/'
      · obtain ⟨q, hq⟩ := List.getLast?_eq_some_iff.mp hpl
        subst hq
        have h1 : ('~' :: '/' :: (q ++ ['/'])) = ('~' :: '/' :: q) ++ ['/'] := by simp
        rw [h1, stripTrailingSep_concat_sep, stripTrailingSep_concat_sep,
            stripHomeTilde_tilde_slash]
        by_cases hqn : q = []
        · subst hqn
          rfl
        · have hqh : q.head? = (q ++ ['/']).head? := (head?_append_left hqn).symm
          have hq1 : q.head? ≠ some '/' := by rw [hqh]; exact hsl
          have hq2 : q.head? ≠ some '~' := by rw [hqh]; exact htl
          rw [dropWhile_slash_of_head hq1, stripHomeTilde_of_head_ne hq2]
      · have h2 : ('~' :: '/' :: p).getLast? ≠ some '/' := by
          rw [getLast?_cons_ne (by simp), getLast?_cons_ne hpn]
          exact hpl
        rw [stripTrailingSep_of_last_ne h2, stripTrailingSep_of_last_ne hpl,
            stripHomeTilde_tilde_slash, dropWhile_slash_of_head hsl,
            stripHomeTilde_of_head_ne htl]
  · intro h p hmem htl
    rw [hok h _ hmem]
    have h1 : (p ++ ['/', '/']) = ((p ++ ['/']) ++ ['/']) := by simp
    rw [h1, stripTrailingSep_concat_sep]
    have hh : (p ++ ['/']).head? ≠ some '~' := by
      by_cases hpn : p = []
      · subst hpn
        simp
      · rw [head?_append_left hpn]
        exact htl
    rw [stripHomeTilde_of_head_ne hh]

theorem rsplitOnce_not_mem {c : Char} : ∀ {s : List Char}, c ∉ s →
    rsplitOnce c s = none := by
  intro s
  induction s with
  | nil => intro _; rfl
  | cons a rest ih =>
    intro h
    have ha : a ≠ c := fun he => h (he ▸ List.mem_cons_self a rest)
    have hr : c ∉ rest := fun hm => h (List.mem_cons_of_mem a hm)
    simp [rsplitOnce, ih hr, ha]

theorem not_mem_of_rsplitOnce_none {c : Char} : ∀ {s : List Char},
    rsplitOnce c s = none → c ∉ s := by
  intro s
  induction s with
  | nil => intro _; simp
  | cons a rest ih =>
    intro h
    cases hr : rsplitOnce c rest with
    | some lr => simp [rsplitOnce, hr] at h
    | none =>
      simp only [rsplitOnce, hr] at h
      by_cases ha : a = c
      · rw [if_pos ha] at h
        exact absurd h (by simp)
      · intro hm
        rcases List.mem_cons.mp hm with he | hm'
        · exact ha he.symm
        · exact ih hr hm'

theorem rsplitOnce_append {c : Char} : ∀ (a b : List Char), c ∉ b →
    rsplitOnce c (a ++ c :: b) = some (a, b) := by
  intro a
  induction a with
  | nil =>
    intro b hb
    simp [rsplitOnce, rsplitOnce_not_mem hb]
  | cons x rest ih =>
    intro b hb
    simp [rsplitOnce, ih b hb]

theorem rsplitOnce_eq_some {c : Char} : ∀ {s a b : List Char},
    rsplitOnce c s = some (a, b) → s = a ++ c :: b ∧ c ∉ b := by
  intro s
  induction s with
  | nil => intro a b h; exact absurd h (by simp [rsplitOnce])
  | cons x rest ih =>
    intro a b h
    cases hr : rsplitOnce c rest with
    | some lr =>
      obtain ⟨l, r⟩ := lr
      simp only [rsplitOnce, hr] at h
      rw [Option.some.injEq, Prod.mk.injEq] at h
      obtain ⟨ha, hb⟩ := h
      obtain ⟨hrest, hnr⟩ := ih hr
      subst ha
      subst hb
      exact ⟨by rw [hrest]; rfl, hnr⟩
    | none =>
      simp only [rsplitOnce, hr] at h
      by_cases hx : x = c
      · rw [if_pos hx] at h
        rw [Option.some.injEq, Prod.mk.injEq] at h
        obtain ⟨ha, hb⟩ := h
        subst ha
        subst hb
        exact ⟨by rw [hx]; rfl, not_mem_of_rsplitOnce_none hr⟩
      · rw [if_neg hx] at h
        exact absurd h (by simp)

theorem trimChars_sublist (s : List Char) : (trimChars s).Sublist s := by
  unfold trimChars
  have h1 : (s.dropWhile Char.isWhitespace).Sublist s := List.dropWhile_sublist _
  have h2 := List.dropWhile_sublist (l := (s.dropWhile Char.isWhitespace).reverse)
    Char.isWhitespace
  have h3 := h2.reverse
  rw [List.reverse_reverse] at h3
  exact h3.trans h1

theorem not_mem_trimChars {c : Char} {s : List Char} (h : c ∉ s) : c ∉ trimChars s :=
  fun hm => h ((trimChars_sublist s).mem hm)

theorem parseLines_error : ∀ (ls : List (List Char)) (l : List Char) (e : String),
    l ∈ ls → parseLine l = .error e → ∃ e', parseLines ls = .error e' := by
  intro ls
  induction ls with
  | nil =>
    intro l e h
    exact absurd h (by simp)
  | cons l' ls ih =>
    intro l e hmem herr
    rcases List.mem_cons.mp hmem with rfl | hmem'
    · exact ⟨e, by simp [parseLines, herr]⟩
    · obtain ⟨e', he'⟩ := ih l e hmem' herr
      cases hl' : parseLine l' with
      | error e'' => exact ⟨e'', by simp [parseLines, hl']⟩
      | ok o =>
        cases o with
        | none => exact ⟨e', by simp [parseLines, hl', he']⟩
        | some entry =>
          cases entry with
          | fileEntry p n => exact ⟨e', by simp [parseLines, hl', he']⟩
          | dirEntry p => exact ⟨e', by simp [parseLines, hl', he']⟩

theorem parseLines_ok : ∀ ls : List (List Char),
    (∀ l ∈ ls, ∃ o, parseLine l = .ok o) → ∃ r, parseLines ls = .ok r := by
  intro ls
  induction ls with
  | nil => intro _; exact ⟨([], []), rfl⟩
  | cons l' ls ih =>
    intro h
    obtain ⟨o, ho⟩ := h l' (List.mem_cons_self l' ls)
    obtain ⟨r, hr⟩ := ih fun l hl => h l (List.mem_cons_of_mem l' hl)
    obtain ⟨ds, fs⟩ := r
    cases o with
    | none => exact ⟨(ds, fs), by simp [parseLines, ho, hr]⟩
    | some entry =>
      cases entry with
      | fileEntry p n => exact ⟨(ds, ⟨p, n⟩ :: fs), by simp [parseLines, ho, hr]⟩
      | dirEntry p => exact ⟨(⟨p⟩ :: ds, fs), by simp [parseLines, ho, hr]⟩

/-- C9 (amended): a line of the remote listing output whose two right-splits
on a space fail (fewer than two spaces after trimming) is a hard failure, as
is a type field other than `f`/`d` and an `f` line whose size field does not
parse as an unsigned 64-bit integer; a well-formed `f` line yields a File
with the parsed size; a `d` line yields a Directory regardless of its size
field (depth-0 directories excluded); any malformed line makes
`from_remote_over_ssh` fail, and if every line parses the whole output is
accepted. -/
theorem C9_remote_listing_parse :
    (∀ (stdout l : List Char) (e : String), l ∈ linesOf (trimChars stdout) →
      parseLine l = .error e → ∃ e', parseFindOutput stdout = .error e') ∧
    (∀ p t z : List Char, ' ' ∉ t → ' ' ∉ z →
      trimChars (p ++ ' ' :: t ++ ' ' :: z) = p ++ ' ' :: t ++ ' ' :: z →
      trimChars (p ++ ' ' :: t) = p ++ ' ' :: t →
      trimChars t = t →
      parseLine (p ++ ' ' :: t ++ ' ' :: z)
        = (if t = ['f'] then
            match parseU64 z with
            | some n => Except.ok (some (ScanEntry.fileEntry (pathOfChars p) n))
            | none => Except.error "failed to parse file size"
          else if t = ['d'] then
            Except.ok (if pathOfChars p ≠ [] then
              some (ScanEntry.dirEntry (pathOfChars p)) else none)
          else Except.error "malformed find output line (incorrect file type)")) ∧
    (∀ l : List Char, (trimChars l).count ' ' ≤ 1 → ∃ e, parseLine l = .error e) ∧
    (∀ stdout : List Char,
      (∀ l ∈ linesOf (trimChars stdout), ∃ o, parseLine l = .ok o) →
      ∃ snap, parseFindOutput stdout = .ok snap) := by
  refine ⟨?_, ?_, ?_, ?_⟩
  · intro stdout l e hmem herr
    obtain ⟨e', he'⟩ := parseLines_error (linesOf (trimChars stdout)) l e hmem herr
    exact ⟨e', by simp [parseFindOutput, he']⟩
  · intro p t z ht hz htr1 htr2 htr3
    have hassoc : p ++ ' ' :: t ++ ' ' :: z = (p ++ ' ' :: t) ++ ' ' :: z := by simp
    simp only [parseLine, htr1, hassoc, rsplitOnce_append (p ++ ' ' :: t) z hz,
      htr2, rsplitOnce_append p t ht, htr3]
  · intro l hcount
    cases h1 : rsplitOnce ' ' (trimChars l) with
    | none => exact ⟨"malformed find output line", by simp [parseLine, h1]⟩
    | some ab =>
      obtain ⟨a, b⟩ := ab
      obtain ⟨heq, hnb⟩ := rsplitOnce_eq_some h1
      have hca : a.count ' ' = 0 := by
        have hcnt := congrArg (List.count ' ') heq
        rw [List.count_append, List.count_cons] at hcnt
        have hb0 : b.count ' ' = 0 := List.count_eq_zero.mpr hnb
        rw [hb0] at hcnt
        simp only [BEq.refl, if_pos] at hcnt
        omega
      have hna : ' ' ∉ a := List.count_eq_zero.mp hca
      have h2 : rsplitOnce ' ' (trimChars a) = none :=
        rsplitOnce_not_mem (not_mem_trimChars hna)
      exact ⟨"malformed find output line", by simp [parseLine, h1, h2]⟩
  · intro stdout hall
    obtain ⟨r, hr⟩ := parseLines_ok (linesOf (trimChars stdout)) hall
    obtain ⟨ds, fs⟩ := r
    exact ⟨⟨ds, fs⟩, by simp [parseFindOutput, hr]⟩

/-- Closed witness for C9: the well-formed line `a f 3` yields the file `a`
of size 3. -/
theorem C9_remote_listing_parse_witness :
    (' ' ∉ ['f']) ∧
    parseLine (['a'] ++ ' ' :: ['f'] ++ ' ' :: ['3'])
      = .ok (some (.fileEntry ["a"] 3)) :=
  ⟨by decide, by
    rw [(C9_remote_listing_parse).2.1 ['a'] ['f'] ['3'] (by decide) (by decide)
      (by decide) (by decide) (by decide)]
    rfl⟩

/-- C9 counterexample: the claim as stated requires an error whenever the
size field does not parse as a non-negative integer, but the line `x d zz`
(type `d`, unparseable size field `zz`) is accepted by the parser as the
directory `x`: the size field is only parsed for `f` lines
(`scan.rs:105-113`). -/
theorem C9_counterexample_d_line_bad_size :
    parseFindOutput ("x d zz".data)
      = .ok { directories := [⟨["x"]⟩], files := [] } := rfl

/-- Closed witness for C10: a descriptor whose directory part itself
contains a colon splits at the first colon. -/
theorem C10_remote_descriptor_normalization_witness :
    (':' ∉ ['h']) ∧
    remoteFromStr (String.mk (['h'] ++ ':' :: ['a', ':', 'b']))
      = .ok ⟨⟨String.mk ['h']⟩, stripHomeTilde (stripTrailingSep ['a', ':', 'b'])⟩ :=
  ⟨by decide,
    (C10_remote_descriptor_normalization).1 ['h'] ['a', ':', 'b'] (by decide)⟩

/-- Closed witness for C3 at a concrete pair of snapshots. -/
theorem C3_reconcile_apply_idempotent_witness :
    (([⟨["a"]⟩] : List Directory).map Directory.path).Nodup ∧
    (([⟨["a", "x"], 3⟩] : List File).map File.path).Nodup ∧
    (([⟨["c"]⟩] : List Directory).map Directory.path).Nodup ∧
    (([⟨["a", "x"], 5⟩, ⟨["old"], 1⟩] : List File).map File.path).Nodup ∧
    Sync.unidirectional ⟨[⟨["a"]⟩], [⟨["a", "x"], 3⟩]⟩
      (applySync
        (Sync.unidirectional ⟨[⟨["a"]⟩], [⟨["a", "x"], 3⟩]⟩
          ⟨[⟨["c"]⟩], [⟨["a", "x"], 5⟩, ⟨["old"], 1⟩]⟩)
        ⟨[⟨["a"]⟩], [⟨["a", "x"], 3⟩]⟩ ⟨[⟨["c"]⟩], [⟨["a", "x"], 5⟩, ⟨["old"], 1⟩]⟩)
      = { remove_files := [], remove_directories := [], create_directories := [],
          copy_files := [] } :=
  ⟨by decide, by decide, by decide, by decide,
    C3_reconcile_apply_idempotent ⟨[⟨["a"]⟩], [⟨["a", "x"], 3⟩]⟩
      ⟨[⟨["c"]⟩], [⟨["a", "x"], 5⟩, ⟨["old"], 1⟩]⟩
      (by decide) (by decide) (by decide) (by decide) (by decide) (by decide)⟩

end GitRepoSync
